import Mathlib

/-!
Verification development for the `bd.loader` asset-browser panel.

Shallow embedding of the Python sources under `src/python/bd/loader/lib/`:
pure fragments become Lean functions, stateful classes become explicit
state-passing functions, callback-based asynchrony is modelled by returning
the list of callback-invocation arguments, and Python exceptions become
`Except` / early returns.
-/

namespace BdLoader

/-! ## Opaque payload types

`QPixmap` / `QIcon` payloads and `datetime` values are irrelevant to the
verified properties; they are modelled as plain tokens. -/

abbrev PixmapData := Nat

abbrev Icon := Nat

/-! ## Data model (`data_models.py`)

`AssetDetails` and `AssetInfo` are the two dataclasses of `data_models.py`,
with exactly the fields the source declares (note: no `category`/`level`
field on `AssetInfo`). -/

structure AssetDetails where
  fullname : String
  version : Int
  created_at : Int
  modified_at : Int
  thumbnail : Option PixmapData := none
deriving DecidableEq, Repr

/-- `Union[int, str]` identifier of an asset. -/
inductive AssetId where
  | int (n : Int)
  | str (s : String)
deriving DecidableEq, Repr

structure AssetInfo where
  id : AssetId
  type : String
  name : String
  icon : Option PixmapData := none
  details : Option AssetDetails := none
deriving DecidableEq, Repr

/-- Field names of the `AssetInfo` dataclass as declared in
`data_models.py` (a Python dataclass `__init__` accepts exactly these
keyword arguments). -/
def assetInfoFields : List String := ["id", "type", "name", "icon", "details"]

/-- Keyword arguments that `GraphQLAccessor._create_asset_info_from_db_item`
(`database/graphql.py`) passes to the `AssetInfo` constructor. -/
def createAssetInfoKwargs : List String := ["id", "type", "name", "level", "category"]

/-- A Python dataclass constructor call succeeds exactly when every keyword
argument names a declared field; otherwise it raises `TypeError`. -/
def dataclassCallAccepts (fields kwargs : List String) : Bool :=
  kwargs.all (fun k => fields.contains k)

/-! ## Background request runner (`threading_utils.py`, `RequestRunnable`)

`run` executes the unit of work inside `try/except`: on success it schedules
exactly one invocation of the callback (via `InvokeMethod`, which emits a
signal once, re-invoking the callback on the UI-owning thread — thread
placement itself is not modelled); on an exception the error is logged and
the callback is never scheduled.  The returned list holds the argument of
each scheduled callback invocation. -/

def RequestRunnable.run {α : Type} (request : Except String α) : List α :=
  match request with
  | .ok result => [result]
  | .error _ => []

/-! ## Hook-dispatch accessor (`database/accessor.py`)

`bd.context.Project` is external; only its presence matters. -/

structure Project where
  id : Int
deriving DecidableEq, Repr

/-- Outcome of `execute_hook(name, ...).one()` for one request: either the
hook machinery raises `HookNotFoundError`/`HooksNotLoadedError` (no hook is
registered / hooks not loaded), or it returns a value, possibly `None`. -/
inductive HookOutcome (α : Type) where
  | notFound
  | value (v : Option α)
deriving DecidableEq

/-- `execute_hook(...).one() or result` with `result = []`: a raised
hook-lookup error is swallowed and yields `[]`; a falsy return (`None` or an
empty list) also yields `[]`. -/
def hookListResult {α : Type} (h : HookOutcome (List α)) : List α :=
  match h with
  | .notFound => []
  | .value none => []
  | .value (some xs) => xs

/-- `Accessor.request_asset_types`: returns (without any callback) when no
active project is set; otherwise hands `_request` to the runner, and the
callback receives the hook result (empty list on a swallowed hook error).
The returned list holds the argument of each callback invocation. -/
def Accessor.request_asset_types (project : Option Project)
    (hook : HookOutcome (List String)) : List (List String) :=
  match project with
  | none => []
  | some _ => RequestRunnable.run (Except.ok (hookListResult hook))

/-- `Accessor.request_assets` (the `asset_type` argument only parameterises
the hook call, modelled by the supplied outcome). -/
def Accessor.request_assets (project : Option Project) (_asset_type : String)
    (hook : HookOutcome (List AssetInfo)) : List (List AssetInfo) :=
  match project with
  | none => []
  | some _ => RequestRunnable.run (Except.ok (hookListResult hook))

/-- `Accessor.request_assets_by_regex` (guard is `if not self._project`). -/
def Accessor.request_assets_by_regex (project : Option Project) (_regex : String)
    (hook : HookOutcome (List AssetInfo)) : List (List AssetInfo) :=
  match project with
  | none => []
  | some _ => RequestRunnable.run (Except.ok (hookListResult hook))

/-- `Accessor.request_asset_details`: `_request` returns the hook value, or
falls through to `None` on a swallowed hook-lookup error. -/
def Accessor.request_asset_details (project : Option Project) (_asset_info : AssetInfo)
    (hook : HookOutcome AssetDetails) : List (Option AssetDetails) :=
  match project with
  | none => []
  | some _ =>
      RequestRunnable.run (Except.ok (match hook with
        | .notFound => none
        | .value v => v))

/-! ## Icon manager (`threading_utils.py`, `IconManager`)

Python dicts are modelled as association lists with overwrite-on-insert;
the shared `LifoQueue` as a list whose head is the most recently pushed
entry.  `κ` is the type of callback values (opaque to the manager).
Operations return the post-state together with the list of callback
invocations `(callback, icon)` they perform. -/

/-- `d[k]`-style lookup in a Python dict modelled as an association list. -/
def dictGet {κ : Type} (d : List (AssetId × κ)) (k : AssetId) : Option κ :=
  match d with
  | [] => none
  | (k', v) :: rest => if k' = k then some v else dictGet rest k

/-- `d[k] = v`: overwrite-or-append assignment. -/
def dictSet {κ : Type} (d : List (AssetId × κ)) (k : AssetId) (v : κ) :
    List (AssetId × κ) :=
  match d with
  | [] => [(k, v)]
  | (k', v') :: rest => if k' = k then (k, v) :: rest else (k', v') :: dictSet rest k v

structure IconManagerState (κ : Type) where
  loaded_icons : List (AssetId × Icon)
  requests : List (AssetId × κ)
  queue : List AssetInfo
deriving DecidableEq

/-- The state of a freshly constructed `IconManager`. -/
def IconManagerState.initial (κ : Type) : IconManagerState κ := ⟨[], [], []⟩

/-- `IconManager.request_icon(callback, asset_info)`: cached id → invoke the
callback synchronously with the cached icon; pending id → plain return;
otherwise record the callback and push the asset onto the LIFO queue. -/
def IconManager.request_icon {κ : Type} (st : IconManagerState κ)
    (callback : κ) (asset_info : AssetInfo) :
    IconManagerState κ × List (κ × Icon) :=
  match dictGet st.loaded_icons asset_info.id with
  | some icon => (st, [(callback, icon)])
  | none =>
      if (dictGet st.requests asset_info.id).isSome then (st, [])
      else
        ({ st with
            requests := dictSet st.requests asset_info.id callback,
            queue := asset_info :: st.queue }, [])

/-- A `PixmapLoader` worker taking the next entry off the shared LIFO queue
(`queue.get`); `none` models the `Empty` timeout. -/
def IconManager.dequeue {κ : Type} (st : IconManagerState κ) :
    IconManagerState κ × Option AssetInfo :=
  match st.queue with
  | [] => (st, none)
  | a :: rest => ({ st with queue := rest }, some a)

/-- `IconManager._on_pixmap_loaded` followed by `_apply_icon`: store the
icon in the cache, then deliver it to the recorded callback, if any (the
pending-request record is not removed). -/
def IconManager.on_pixmap_loaded {κ : Type} (st : IconManagerState κ)
    (asset_info : AssetInfo) (pixmap : PixmapData) :
    IconManagerState κ × List (κ × Icon) :=
  let icon : Icon := pixmap
  let st' := { st with loaded_icons := dictSet st.loaded_icons asset_info.id icon }
  match dictGet st'.requests asset_info.id with
  | some cb => (st', [(cb, icon)])
  | none => (st', [])

/-- `IconManager.clear_cache`: drops cached icons and pending-request
records; queued-but-unfetched entries stay in the queue.  (No caller of
`clear_cache` exists anywhere in this repository.) -/
def IconManager.clear_cache {κ : Type} (st : IconManagerState κ) :
    IconManagerState κ :=
  { st with loaded_icons := [], requests := [] }

/-- The icon-manager operations the application actually performs
(`ItemModel.data` issues requests, `PixmapLoader.start` dequeues,
`pixmap_loaded` delivers completions; `clear_cache` is never called). -/
inductive IconOp (κ : Type) where
  | request (callback : κ) (asset_info : AssetInfo)
  | dequeue
  | complete (asset_info : AssetInfo) (pixmap : PixmapData)

def IconOp.apply {κ : Type} (st : IconManagerState κ) : IconOp κ → IconManagerState κ
  | .request cb a => (IconManager.request_icon st cb a).1
  | .dequeue => (IconManager.dequeue st).1
  | .complete a pix => (IconManager.on_pixmap_loaded st a pix).1

/-- State after a sequence of icon-manager operations from the initial state. -/
def IconOp.runFrom {κ : Type} (st : IconManagerState κ) (ops : List (IconOp κ)) :
    IconManagerState κ :=
  ops.foldl IconOp.apply st

/-- De-duplication invariant of the icon manager: every queued asset has a
pending-request record, and no two queue entries share an asset-id. -/
def IconInv {κ : Type} (st : IconManagerState κ) : Prop :=
  (∀ a ∈ st.queue, (dictGet st.requests a.id).isSome = true) ∧
    (st.queue.map AssetInfo.id).Nodup

/-- `request_icon` iterated `n` times with the same callback and asset,
collecting every synchronous callback invocation. -/
def IconManager.request_icon_iter {κ : Type} (st : IconManagerState κ)
    (callback : κ) (asset_info : AssetInfo) : Nat → IconManagerState κ × List (κ × Icon)
  | 0 => (st, [])
  | n + 1 =>
      let (st', calls) := IconManager.request_icon st callback asset_info
      let (st'', calls') := IconManager.request_icon_iter st' callback asset_info n
      (st'', calls ++ calls')

/-! ## Lazy tree loading states (`widgets/asset_selector.py`)

`LoadingStates` is the enum of `asset_selector.py`; the operations below are
the per-node `LoadingStateRole` transitions performed by the source.
Expansion (`_load_children` / append-completion) only ever runs on expandable
nodes (the invisible root and `AssetType` items); the icon-decoration pair of
transitions (`ItemModel.data` under `DecorationRole` / its `_on_loaded`
callback) only ever runs on `AssetName` items. -/

inductive LoadingStates where
  | ToLoad
  | NotLoaded
  | InProgress
  | Loaded
deriving DecidableEq, Repr

inductive EntityType where
  | AssetType
  | AssetName
deriving DecidableEq, Repr

/-- `AssetTreeView._load_children` restricted to one node's loading state:
the guard returns immediately unless the state is `NotLoaded`; otherwise the
state becomes `InProgress` and a request is dispatched for the root
(asset types) or for an `AssetType` node (assets of that type).  The Bool
reports whether a request was dispatched. -/
def AssetTreeView.load_children_state (is_root : Bool) (entity : EntityType)
    (s : LoadingStates) : LoadingStates × Bool :=
  if s ≠ LoadingStates.NotLoaded then (s, false)
  else (LoadingStates.InProgress, is_root || entity == EntityType.AssetType)

/-- `_append_items` / `_append_asset_items` completion callback: the parent
node's state is set to `Loaded` unconditionally. -/
def AssetTreeView.append_complete_state (_s : LoadingStates) : LoadingStates :=
  LoadingStates.Loaded

/-- `AssetTreeView.reload` → `_clear`: the model is cleared and the fresh
root is tagged `NotLoaded`. -/
def AssetTreeView.reload_state (_s : LoadingStates) : LoadingStates :=
  LoadingStates.NotLoaded

/-- `ItemModel.data` under `DecorationRole` on an icon-less `AssetName`
item: unless already `InProgress`, the state is set to `InProgress` and an
icon request is issued. -/
def ItemModel.decoration_request_state (s : LoadingStates) : LoadingStates :=
  if s ≠ LoadingStates.InProgress then LoadingStates.InProgress else s

/-- The `_on_loaded` icon callback: the item state is set to `Loaded`. -/
def ItemModel.icon_loaded_state (_s : LoadingStates) : LoadingStates :=
  LoadingStates.Loaded

/-- All per-node loading-state transitions other than `reload`. -/
inductive NodeOp where
  | loadChildren (is_root : Bool) (entity : EntityType)
  | appendComplete
  | decorationRequest
  | iconLoaded
deriving DecidableEq

def NodeOp.applyState : NodeOp → LoadingStates → LoadingStates
  | .loadChildren r e, s => (AssetTreeView.load_children_state r e s).1
  | .appendComplete, s => AssetTreeView.append_complete_state s
  | .decorationRequest, s => ItemModel.decoration_request_state s
  | .iconLoaded, s => ItemModel.icon_loaded_state s

/-- Position of a state along the `NotLoaded → InProgress → Loaded`
progression (the unused `ToLoad` tag sits below it). -/
def LoadingStates.rank : LoadingStates → Nat
  | .ToLoad => 0
  | .NotLoaded => 1
  | .InProgress => 2
  | .Loaded => 3

/-! ## Natural-order sort key (`ProxyModel` in `widgets/asset_selector.py`)

`_human_key` splits a key with `re.split(r"(\d*\.\d+|\d+)", key)` — the
parts list alternates unmatched text (even indices, possibly empty) with
regex matches (odd indices, never empty) — then maps text parts through
`str.swapcase()` and numeric parts through `float()`.  Numeric values are
modelled exactly as rationals (the magnitudes compared here are well within
the range where `float` ordering agrees).  Tuple elements are
`String ⊕ ℚ`; Python tuple comparison is element-wise and raises
`TypeError` on a `str`/`float` pair, modelled by `Option Ordering`. -/

/-- Maximal digit prefix of a character list, with the remainder. -/
def takeDigits : List Char → List Char × List Char
  | [] => ([], [])
  | c :: rest =>
      if c.isDigit then
        let (d, r) := takeDigits rest
        (c :: d, r)
      else ([], c :: rest)

theorem takeDigits_append : ∀ l : List Char, (takeDigits l).1 ++ (takeDigits l).2 = l := by
  intro l
  induction l with
  | nil => rfl
  | cons c rest ih =>
      by_cases h : c.isDigit
      · simp only [takeDigits, h, if_true]
        cases htd : takeDigits rest with
        | mk d r =>
            simp only [List.cons_append, List.cons.injEq, true_and]
            have := ih
            rw [htd] at this
            exact this
      · simp [takeDigits, h]

theorem takeDigits_snd_length_le : ∀ l : List Char, (takeDigits l).2.length ≤ l.length := by
  intro l
  induction l with
  | nil => exact Nat.le_refl _
  | cons c rest ih =>
      by_cases h : c.isDigit <;> simp [takeDigits, h]
      exact Nat.le_succ_of_le ih

/-- Attempt to match the regex `\d*\.\d+|\d+` at the head of `l` (Python
`re` semantics: first alternative preferred, greedy digit runs).  Returns
the matched characters and the remainder. -/
def matchNum (l : List Char) : Option (List Char × List Char) :=
  let (d1, r1) := takeDigits l
  match r1 with
  | c :: r2 =>
      if c = '.' then
        let (d2, r3) := takeDigits r2
        if d2 ≠ [] then some (d1 ++ c :: d2, r3)
        else if d1 ≠ [] then some (d1, r1) else none
      else if d1 ≠ [] then some (d1, r1) else none
  | [] => if d1 ≠ [] then some (d1, r1) else none

/-- A successful match consumes a nonempty prefix of the input. -/
theorem matchNum_spec {l num r : List Char} (h : matchNum l = some (num, r)) :
    num ++ r = l ∧ num ≠ [] := by
  unfold matchNum at h
  cases hd1 : takeDigits l with
  | mk d1 r1 =>
      rw [hd1] at h
      have hl : d1 ++ r1 = l := by
        have := takeDigits_append l
        rw [hd1] at this
        exact this
      cases r1 with
      | nil =>
          simp only at h
          by_cases h1 : d1 = []
          · simp [h1] at h
          · simp only [h1, ne_eq, not_false_eq_true, if_true, Option.some.injEq,
              Prod.mk.injEq] at h
            obtain ⟨hnum, hr⟩ := h
            subst hnum
            subst hr
            exact ⟨hl, h1⟩
      | cons c r2 =>
          simp only at h
          by_cases hc : c = '.'
          · rw [if_pos hc] at h
            cases hd2 : takeDigits r2 with
            | mk d2 r3 =>
                rw [hd2] at h
                have hr2 : d2 ++ r3 = r2 := by
                  have := takeDigits_append r2
                  rw [hd2] at this
                  exact this
                by_cases h2 : d2 = []
                · simp only [h2, ne_eq, not_true_eq_false, if_false] at h
                  by_cases h1 : d1 = []
                  · simp [h1] at h
                  · simp only [ne_eq, h1, not_false_eq_true, if_true,
                      Option.some.injEq, Prod.mk.injEq] at h
                    obtain ⟨hnum, hr⟩ := h
                    subst hnum
                    subst hr
                    exact ⟨hl, h1⟩
                · simp only [ne_eq, h2, not_false_eq_true, if_true,
                    Option.some.injEq, Prod.mk.injEq] at h
                  obtain ⟨hnum, hr⟩ := h
                  subst hnum
                  subst hr
                  constructor
                  · rw [List.append_assoc, List.cons_append, hr2] at *
                    exact hl
                  · simp
          · rw [if_neg hc] at h
            by_cases h1 : d1 = []
            · simp [h1] at h
            · simp only [ne_eq, h1, not_false_eq_true, if_true, Option.some.injEq,
                Prod.mk.injEq] at h
              obtain ⟨hnum, hr⟩ := h
              subst hnum
              subst hr
              exact ⟨hl, h1⟩

theorem matchNum_rest_lt {l num r : List Char} (h : matchNum l = some (num, r)) :
    r.length < l.length := by
  obtain ⟨happ, hne⟩ := matchNum_spec h
  have hlen : num.length + r.length = l.length := by
    have := congrArg List.length happ
    simpa using this
  cases num with
  | nil => exact absurd rfl hne
  | cons _ _ =>
      simp only [List.length_cons] at hlen
      omega

/-- `re.split(r"(\d*\.\d+|\d+)", ...)` worker: scan for the next match,
accumulating unmatched characters (in reverse) in `acc`.  The result
alternates unmatched text (even indices) with matches (odd indices).
`fuel` only bounds the recursion so that the kernel can evaluate the
function; every match consumes at least one character, so starting with
`fuel = l.length` (as `reSplitNum` does) the exhaustion branch is
unreachable — see `reSplitGo_fuel_irrelevant`. -/
def reSplitGo (fuel : Nat) (acc : List Char) (l : List Char) : List String :=
  match fuel, l with
  | _, [] => [String.mk acc.reverse]
  | 0, l => [String.mk (acc.reverse ++ l)]
  | fuel + 1, c :: rest =>
      match matchNum (c :: rest) with
      | some (num, r) => String.mk acc.reverse :: String.mk num :: reSplitGo fuel [] r
      | none => reSplitGo fuel (c :: acc) rest

/-- `re.split(r"(\d*\.\d+|\d+)", key)`. -/
def reSplitNum (key : String) : List String :=
  reSplitGo key.data.length [] key.data

/-- Numeric value of one regex match (`float(e)` in the source, modelled
exactly as a rational; every value compared by the program is far below the
magnitude at which `float` ordering would diverge). -/
def digitsToNat (l : List Char) : Nat :=
  l.foldl (fun acc c => 10 * acc + (c.toNat - '0'.toNat)) 0

def numVal (s : String) : ℚ :=
  match takeDigits s.data with
  | (d1, '.' :: r2) =>
      let d2 := (takeDigits r2).1
      (digitsToNat d1 : ℚ) + (digitsToNat d2 : ℚ) / ((10 : ℚ) ^ d2.length)
  | (d1, _) => (digitsToNat d1 : ℚ)

/-- `str.swapcase()` per character (the source's keys are ASCII). -/
def swapcaseChar (c : Char) : Char :=
  if c.isLower then c.toUpper else if c.isUpper then c.toLower else c

def swapcase (s : String) : String :=
  String.mk (s.data.map swapcaseChar)

/-- One element of the tuple built by `_human_key`. -/
abbrev KeyElem := String ⊕ ℚ

/-- The enumerate-and-map step of `_human_key`: even positions are text
(`swapcase`), odd positions are numbers (`float`). -/
def humanKeyAux : Nat → List String → List KeyElem
  | _, [] => []
  | i, e :: rest =>
      (if i % 2 = 0 then Sum.inl (swapcase e) else Sum.inr (numVal e))
        :: humanKeyAux (i + 1) rest

/-- `ProxyModel._human_key`. -/
def ProxyModel.human_key (key : String) : List KeyElem :=
  humanKeyAux 0 (reSplitNum key)

/-! Python comparison:  `str` compares lexicographically by code point,
`float` by value, tuples element-wise with the shorter tuple losing ties;
comparing a `str` against a `float` raises `TypeError`, modelled as
`none`. -/

def compareCharList : List Char → List Char → Ordering
  | [], [] => .eq
  | [], _ :: _ => .lt
  | _ :: _, [] => .gt
  | a :: as, b :: bs =>
      if a.toNat < b.toNat then .lt
      else if b.toNat < a.toNat then .gt
      else compareCharList as bs

def compareStr (a b : String) : Ordering :=
  compareCharList a.data b.data

def compareRat (a b : ℚ) : Ordering :=
  if a < b then .lt else if b < a then .gt else .eq

/-- Comparison of one tuple element; `none` is Python's `TypeError`. -/
def compareElem : KeyElem → KeyElem → Option Ordering
  | .inl a, .inl b => some (compareStr a b)
  | .inr a, .inr b => some (compareRat a b)
  | .inl _, .inr _ => none
  | .inr _, .inl _ => none

/-- Python tuple comparison, element-wise and short-circuiting. -/
def pyCompare : List KeyElem → List KeyElem → Option Ordering
  | [], [] => some .eq
  | [], _ :: _ => some .lt
  | _ :: _, [] => some .gt
  | a :: as, b :: bs =>
      match compareElem a b with
      | none => none
      | some .eq => pyCompare as bs
      | some o => some o

/-- `ProxyModel.lessThan`: returns `self._human_key(left) > self._human_key(right)`
on the two sort keys (note the reversed comparison in the source). -/
def ProxyModel.lessThan (left right : String) : Bool :=
  pyCompare (ProxyModel.human_key left) (ProxyModel.human_key right) == some .gt

/-- Stable insertion used to model the view's sort: the new row `x` is
placed before the first existing row `y` with `lessThan(y, x)` (the
swapped-argument test of a descending Qt sort) and after equal rows. -/
def sortInsert (x : String) : List String → List String
  | [] => [x]
  | y :: ys => if ProxyModel.lessThan y x then x :: y :: ys else y :: sortInsert x ys

/-- Displayed row order.  `setSortingEnabled(True)` (asset_selector.py line
253, with no `sortByColumn` call anywhere) makes the view sort with the
header's current sort indicator, which Qt5's `QHeaderView` initialises to
section 0, `Qt.DescendingOrder`; for a descending sort
`QSortFilterProxyModel` stable-sorts the rows placing `a` before `b`
exactly when `lessThan(b, a)` holds — the comparator is applied with
swapped arguments, which re-inverts the reversed comparison inside
`lessThan`, so the display is ascending by the natural key. -/
def displaySort (rows : List String) : List String :=
  rows.foldl (fun acc x => sortInsert x acc) []

/-- Python `str.casefold()` per character; for the ASCII sort keys this
program handles, case folding is lowercasing. -/
def casefold (s : String) : String :=
  String.mk (s.data.map Char.toLower)

/-- The enumerate-and-map step of the key function the spec describes
(case-folded text runs); differs from `humanKeyAux` only in the text
transformation. -/
def humanKeyCfAux : Nat → List String → List KeyElem
  | _, [] => []
  | i, e :: rest =>
      (if i % 2 = 0 then Sum.inl (casefold e) else Sum.inr (numVal e))
        :: humanKeyCfAux (i + 1) rest

/-- The sort key the claim describes, stated from the spec's words
("compares case-folded text runs lexically and numeric runs by value") for
comparison with the source's `human_key`, which swapcases instead. -/
def ProxyModel.human_key_casefolded (key : String) : List KeyElem :=
  humanKeyCfAux 0 (reSplitNum key)

/-! ## Recursive filtering (`ProxyModel.filterAcceptsRow` + view config)

`AssetTreeView.__init__` configures the proxy with
`setFilterCaseSensitivity(CaseInsensitive)` and
`setRecursiveFilteringEnabled(True)`; `load_by_regex` installs the pattern
via `setFilterWildcard`.  The external `QRegExp` wildcard match
(`indexIn(data) != -1`) is modelled for the wildcard constructs the widget
can receive — `*` (any run), `?` (any one character) and literal characters
— matched case-insensitively anywhere inside the text. -/

/-- Does the wildcard pattern match some prefix of the text
(case-insensitively)?  `fuel` only bounds the recursion for kernel
evaluation: each step shrinks `p.length + t.length`, so `wcSearch` passes
enough fuel for the exhaustion branch to be unreachable. -/
def wcMatch (fuel : Nat) (p t : List Char) : Bool :=
  match fuel, p with
  | _, [] => true
  | 0, _ => false
  | fuel + 1, c :: p' =>
      if c = '*' then
        wcMatch fuel p' t ||
          (match t with
           | [] => false
           | _ :: t' => wcMatch fuel (c :: p') t')
      else
        match t with
        | [] => false
        | d :: t' => (c = '?' || c.toLower = d.toLower) && wcMatch fuel p' t'

/-- `QRegExp.indexIn(text) != -1`: the pattern matches starting at some
position of the text. -/
def wcSearch (p : List Char) : List Char → Bool
  | [] => wcMatch (p.length + 1) p []
  | c :: t' => wcMatch (p.length + (c :: t').length + 1) p (c :: t') || wcSearch p t'

/-- `ProxyModel.filterAcceptsRow` reduced to the row's own sort key: an
empty pattern accepts everything; otherwise the wildcard pattern must occur
in the key. -/
def ProxyModel.filterAcceptsRow (pattern key : String) : Bool :=
  if pattern = "" then true
  else wcSearch pattern.data key.data

/-- A tree of model items, each carrying its `KeyRole` sort key. -/
inductive Tree where
  | node (key : String) (children : List Tree)

def Tree.key : Tree → String
  | .node k _ => k

def Tree.children : Tree → List Tree
  | .node _ c => c

/-! With `setRecursiveFilteringEnabled(True)`, Qt accepts a source row when
`filterAcceptsRow` holds for the row itself or, recursively, for some
descendant (`anyAcceptedRec` ranges over a child list). -/
mutual

def Tree.acceptedRec (pattern : String) : Tree → Bool
  | .node k cs =>
      ProxyModel.filterAcceptsRow pattern k || Tree.anyAcceptedRec pattern cs

def Tree.anyAcceptedRec (pattern : String) : List Tree → Bool
  | [] => false
  | c :: cs => Tree.acceptedRec pattern c || Tree.anyAcceptedRec pattern cs

end

/-! All strict descendants of a node (`descendantsList` flattens a forest). -/
mutual

def Tree.descendants : Tree → List Tree
  | .node _ cs => Tree.descendantsList cs

def Tree.descendantsList : List Tree → List Tree
  | [] => []
  | c :: cs => c :: (Tree.descendants c ++ Tree.descendantsList cs)

end

/-- The node reached from `t` by a path of child indices. -/
def Tree.nodeAt : Tree → List Nat → Option Tree
  | t, [] => some t
  | t, i :: rest =>
      match t.children.get? i with
      | none => none
      | some c => c.nodeAt rest

/-- A row of the filtered proxy model is shown exactly when it and every
ancestor up to the (unfiltered) root is accepted: `visibleAt t path` says
the node reached by `path` from top-level tree `t` is displayed. -/
def Tree.visibleAt (pattern : String) : Tree → List Nat → Bool
  | t, [] => t.acceptedRec pattern
  | t, i :: rest =>
      t.acceptedRec pattern &&
        (match t.children.get? i with
         | none => false
         | some c => c.visibleAt pattern rest)

/-! ## Helper lemmas -/

/-- The fuel of `reSplitGo` is irrelevant as long as it covers the input
length (each match consumes at least one character), so `reSplitNum`'s
choice `fuel = l.length` computes the untruncated split. -/
theorem reSplitGo_fuel_irrelevant :
    ∀ (fuel1 fuel2 : Nat) (acc l : List Char),
      l.length ≤ fuel1 → l.length ≤ fuel2 →
      reSplitGo fuel1 acc l = reSplitGo fuel2 acc l := by
  intro fuel1
  induction fuel1 with
  | zero =>
      intro fuel2 acc l h1 h2
      have hl : l = [] := List.eq_nil_of_length_eq_zero (Nat.le_zero.mp h1)
      subst hl
      cases fuel2 <;> rfl
  | succ f ih =>
      intro fuel2 acc l h1 h2
      cases l with
      | nil => cases fuel2 <;> rfl
      | cons c rest =>
          cases fuel2 with
          | zero => simp at h2
          | succ f2 =>
              cases hm : matchNum (c :: rest) with
              | none =>
                  simp only [reSplitGo, hm]
                  exact ih f2 (c :: acc) rest
                    (by simp only [List.length_cons] at h1; omega)
                    (by simp only [List.length_cons] at h2; omega)
              | some pr =>
                  obtain ⟨num, r⟩ := pr
                  have hlt := matchNum_rest_lt hm
                  simp only [List.length_cons] at h1 h2 hlt
                  simp only [reSplitGo, hm]
                  rw [ih f2 [] r (by omega) (by omega)]

/-- The fuel of `wcMatch` is irrelevant as long as it covers
`p.length + t.length` (each step shrinks that sum), so the fuels passed by
`wcSearch` compute the untruncated wildcard match. -/
theorem wcMatch_fuel_irrelevant :
    ∀ (fuel1 fuel2 : Nat) (p t : List Char),
      p.length + t.length ≤ fuel1 → p.length + t.length ≤ fuel2 →
      wcMatch fuel1 p t = wcMatch fuel2 p t := by
  intro fuel1
  induction fuel1 with
  | zero =>
      intro fuel2 p t h1 h2
      cases p with
      | nil => cases fuel2 <;> rfl
      | cons c p' => simp at h1
  | succ f ih =>
      intro fuel2 p t h1 h2
      cases p with
      | nil => cases fuel2 <;> rfl
      | cons c p' =>
          cases fuel2 with
          | zero => simp at h2
          | succ f2 =>
              simp only [List.length_cons] at h1 h2
              cases t with
              | nil =>
                  simp only [wcMatch]
                  by_cases hc : c = '*'
                  · rw [if_pos hc, if_pos hc]
                    show (wcMatch f p' [] || false) = (wcMatch f2 p' [] || false)
                    rw [ih f2 p' [] (by simp only [List.length_nil]; omega)
                      (by simp only [List.length_nil]; omega)]
                  · rw [if_neg hc, if_neg hc]
              | cons d t' =>
                  simp only [List.length_cons] at h1 h2
                  simp only [wcMatch]
                  by_cases hc : c = '*'
                  · rw [if_pos hc, if_pos hc]
                    show (wcMatch f p' (d :: t') || wcMatch f (c :: p') t')
                        = (wcMatch f2 p' (d :: t') || wcMatch f2 (c :: p') t')
                    rw [ih f2 p' (d :: t')
                        (by simp only [List.length_cons]; omega)
                        (by simp only [List.length_cons]; omega),
                      ih f2 (c :: p') t'
                        (by simp only [List.length_cons]; omega)
                        (by simp only [List.length_cons]; omega)]
                  · rw [if_neg hc, if_neg hc]
                    show ((c = '?' || c.toLower = d.toLower) && wcMatch f p' t')
                        = ((c = '?' || c.toLower = d.toLower) && wcMatch f2 p' t')
                    rw [ih f2 p' t' (by omega) (by omega)]

theorem dictGet_dictSet_self {κ : Type} (d : List (AssetId × κ)) (k : AssetId) (v : κ) :
    dictGet (dictSet d k v) k = some v := by
  induction d with
  | nil => simp [dictGet, dictSet]
  | cons p rest ih =>
      obtain ⟨k', v'⟩ := p
      by_cases h : k' = k
      · simp [dictGet, dictSet, h]
      · simp [dictGet, dictSet, h, ih]

theorem dictGet_dictSet_ne {κ : Type} (d : List (AssetId × κ)) (k k' : AssetId) (v : κ)
    (h : k' ≠ k) : dictGet (dictSet d k v) k' = dictGet d k' := by
  have hne : ¬(k = k') := fun hk => h hk.symm
  induction d with
  | nil => simp [dictGet, dictSet, hne]
  | cons p rest ih =>
      obtain ⟨k0, v0⟩ := p
      by_cases h0 : k0 = k
      · subst h0
        simp [dictGet, dictSet, hne]
      · simp only [dictSet, if_neg h0, dictGet]
        by_cases h1 : k0 = k'
        · simp [h1]
        · simp [h1, ih]

theorem dictGet_dictSet_isSome {κ : Type} (d : List (AssetId × κ)) (k k' : AssetId)
    (v : κ) (h : (dictGet d k').isSome = true) :
    (dictGet (dictSet d k v) k').isSome = true := by
  by_cases hk : k' = k
  · subst hk
    simp [dictGet_dictSet_self]
  · rw [dictGet_dictSet_ne d k k' v hk]
    exact h

/-- `request_icon` preserves the de-duplication invariant. -/
theorem iconInv_request {κ : Type} (st : IconManagerState κ) (cb : κ) (a : AssetInfo)
    (h : IconInv st) : IconInv (IconManager.request_icon st cb a).1 := by
  obtain ⟨hmem, hnodup⟩ := h
  unfold IconManager.request_icon
  cases hload : dictGet st.loaded_icons a.id with
  | some icon => exact ⟨hmem, hnodup⟩
  | none =>
      simp only
      by_cases hpend : (dictGet st.requests a.id).isSome = true
      · simp only [hpend, if_true]
        exact ⟨hmem, hnodup⟩
      · simp only [hpend, if_false]
        constructor
        · intro x hx
          rcases List.mem_cons.mp hx with hxa | hxq
          · subst hxa
            simp [dictGet_dictSet_self]
          · exact dictGet_dictSet_isSome _ _ _ _ (hmem x hxq)
        · refine List.nodup_cons.mpr ⟨?_, hnodup⟩
          intro hidmem
          rcases List.mem_map.mp hidmem with ⟨x, hxq, hxid⟩
          have := hmem x hxq
          rw [hxid] at this
          exact hpend this

/-- Dequeuing by a worker preserves the invariant. -/
theorem iconInv_dequeue {κ : Type} (st : IconManagerState κ)
    (h : IconInv st) : IconInv (IconManager.dequeue st).1 := by
  obtain ⟨hmem, hnodup⟩ := h
  unfold IconManager.dequeue
  cases hq : st.queue with
  | nil =>
      constructor
      · intro x hx
        exact hmem x hx
      · exact hnodup
  | cons a rest =>
      constructor
      · intro x hx
        exact hmem x (by simp [hq, hx])
      · have : (st.queue.map AssetInfo.id).Nodup := hnodup
        rw [hq] at this
        exact (List.nodup_cons.mp (by simpa using this)).2

/-- Completion touches only the icon cache: requests and queue are unchanged. -/
theorem on_pixmap_loaded_state {κ : Type} (st : IconManagerState κ) (a : AssetInfo)
    (pix : PixmapData) :
    (IconManager.on_pixmap_loaded st a pix).1.requests = st.requests ∧
      (IconManager.on_pixmap_loaded st a pix).1.queue = st.queue := by
  simp only [IconManager.on_pixmap_loaded]
  cases hreq : dictGet st.requests a.id <;> simp [hreq]

/-- Completion delivery preserves the invariant. -/
theorem iconInv_complete {κ : Type} (st : IconManagerState κ) (a : AssetInfo)
    (pix : PixmapData) (h : IconInv st) :
    IconInv (IconManager.on_pixmap_loaded st a pix).1 := by
  obtain ⟨hmem, hnodup⟩ := h
  obtain ⟨hr, hq⟩ := on_pixmap_loaded_state st a pix
  constructor
  · intro x hx
    rw [hq] at hx
    rw [hr]
    exact hmem x hx
  · rw [hq]
    exact hnodup

theorem iconInv_apply {κ : Type} (st : IconManagerState κ) (op : IconOp κ)
    (h : IconInv st) : IconInv (IconOp.apply st op) := by
  cases op with
  | request cb a => exact iconInv_request st cb a h
  | dequeue => exact iconInv_dequeue st h
  | complete a pix => exact iconInv_complete st a pix h

theorem iconInv_initial (κ : Type) : IconInv (IconManagerState.initial κ) := by
  constructor
  · intro a ha
    simp [IconManagerState.initial] at ha
  · simp [IconManagerState.initial]

theorem iconInv_runFrom {κ : Type} (ops : List (IconOp κ)) (st : IconManagerState κ)
    (h : IconInv st) : IconInv (IconOp.runFrom st ops) := by
  induction ops generalizing st with
  | nil => exact h
  | cons op rest ih => exact ih _ (iconInv_apply st op h)

/-! ## Claim theorems -/

/-- C9: the spec states that `AssetInfo` carries optional category/level
fields and accepts the keyword arguments that
`GraphQLAccessor._create_asset_info_from_db_item` supplies; the dataclass in
`data_models.py` declares no `level` or `category` field, so that
constructor call raises `TypeError` on every database row (the code also
reads `asset_info.level` / `asset_info.category` in
`request_asset_details`, confirming the fields were intended). -/
theorem assetInfo_rejects_graphql_kwargs :
    dataclassCallAccepts assetInfoFields createAssetInfoKwargs = false := by
  decide

/-- C7: the background request runner invokes the callback exactly once,
with the produced result, exactly when the unit of work completes without
raising; when the work raises, the callback is never invoked (the error is
only logged). -/
theorem requestRunnable_callback_once {α : Type} (w : Except String α) (a : α)
    (e : String) :
    ((RequestRunnable.run w).length = 1 ↔ ∃ x, w = Except.ok x)
      ∧ RequestRunnable.run (Except.ok a) = [a]
      ∧ RequestRunnable.run (Except.error e : Except String α) = [] := by
  refine ⟨?_, rfl, rfl⟩
  cases w with
  | ok x => simp [RequestRunnable.run]
  | error err => simp [RequestRunnable.run]

/-- C1 counterexample: when no active project has been set, every
data-accessor request method returns without invoking its callback at all —
zero invocations instead of the claimed exactly-one empty/None delivery. -/
theorem accessor_no_project_drops_callback :
    Accessor.request_asset_types none HookOutcome.notFound = []
      ∧ Accessor.request_assets none "CHR" HookOutcome.notFound = []
      ∧ Accessor.request_assets_by_regex none "hero.*" HookOutcome.notFound = []
      ∧ Accessor.request_asset_details none
          ⟨AssetId.int 1, "CHR", "hero", none, none⟩ HookOutcome.notFound = [] :=
  ⟨rfl, rfl, rfl, rfl⟩

/-- C1 (amended): once an active project is set, each data-accessor request
method returns immediately and invokes its callback exactly once — with the
hook result, or an empty list (`None` for details) when no hook is
registered; when no active project is set the methods return without
invoking the callback at all. -/
theorem accessor_request_callback_once (p : Project) (t r : String) (a : AssetInfo)
    (h1 : HookOutcome (List String)) (h2 h3 : HookOutcome (List AssetInfo))
    (h4 : HookOutcome AssetDetails) :
    (Accessor.request_asset_types (some p) h1).length = 1
      ∧ Accessor.request_asset_types (some p) HookOutcome.notFound = [[]]
      ∧ (Accessor.request_assets (some p) t h2).length = 1
      ∧ Accessor.request_assets (some p) t HookOutcome.notFound = [[]]
      ∧ (Accessor.request_assets_by_regex (some p) r h3).length = 1
      ∧ Accessor.request_assets_by_regex (some p) r HookOutcome.notFound = [[]]
      ∧ (Accessor.request_asset_details (some p) a h4).length = 1
      ∧ Accessor.request_asset_details (some p) a HookOutcome.notFound = [none]
      ∧ Accessor.request_asset_types none h1 = []
      ∧ Accessor.request_assets none t h2 = []
      ∧ Accessor.request_assets_by_regex none r h3 = []
      ∧ Accessor.request_asset_details none a h4 = [] :=
  ⟨rfl, rfl, rfl, rfl, rfl, rfl, rfl, rfl, rfl, rfl, rfl, rfl⟩

/-- C8: when an asset-id is already in the icon cache, `request_icon`
invokes its callback synchronously with the cached icon and changes nothing
(no queue entry, no pending-request record); iterating the call `n` times
yields `n` synchronous deliveries and still leaves the state untouched. -/
theorem request_icon_cached {κ : Type} (st : IconManagerState κ) (cb : κ)
    (a : AssetInfo) (icon : Icon)
    (h : dictGet st.loaded_icons a.id = some icon) :
    IconManager.request_icon st cb a = (st, [(cb, icon)])
      ∧ ∀ n : Nat, IconManager.request_icon_iter st cb a n
          = (st, List.replicate n (cb, icon)) := by
  have hone : IconManager.request_icon st cb a = (st, [(cb, icon)]) := by
    unfold IconManager.request_icon
    rw [h]
  refine ⟨hone, ?_⟩
  intro n
  induction n with
  | zero => rfl
  | succ m ih =>
      simp [IconManager.request_icon_iter, hone, ih, List.replicate_succ]

/-- Witness for C8 at a concrete cached state. -/
theorem request_icon_cached_witness :
    IconManager.request_icon
        (⟨[(AssetId.int 5, 7)], [], []⟩ : IconManagerState Nat) 3
        ⟨AssetId.int 5, "CHR", "hero", none, none⟩
      = (⟨[(AssetId.int 5, 7)], [], []⟩, [(3, 7)]) :=
  (request_icon_cached (⟨[(AssetId.int 5, 7)], [], []⟩ : IconManagerState Nat) 3
    ⟨AssetId.int 5, "CHR", "hero", none, none⟩ 7 (by decide)).1

/-- `request_icon` on an uncached, unpending id registers the callback and
pushes one queue entry. -/
theorem request_icon_fresh {κ : Type} (st : IconManagerState κ) (cb : κ)
    (a : AssetInfo) (hload : dictGet st.loaded_icons a.id = none)
    (hpend : dictGet st.requests a.id = none) :
    IconManager.request_icon st cb a
      = ({ st with requests := dictSet st.requests a.id cb,
                   queue := a :: st.queue }, []) := by
  unfold IconManager.request_icon
  rw [hload, hpend]
  rfl

/-- `request_icon` on an uncached id with a pending request is a no-op. -/
theorem request_icon_pending {κ : Type} (st : IconManagerState κ) (cb : κ)
    (a : AssetInfo) (hload : dictGet st.loaded_icons a.id = none)
    (hpend : (dictGet st.requests a.id).isSome = true) :
    IconManager.request_icon st cb a = (st, []) := by
  unfold IconManager.request_icon
  rw [hload, hpend]
  rfl

/-- Completion delivers the freshly cached icon to the recorded callback. -/
theorem on_pixmap_loaded_delivers {κ : Type} (st : IconManagerState κ)
    (a : AssetInfo) (pix : PixmapData) (cb : κ)
    (h : dictGet st.requests a.id = some cb) :
    (IconManager.on_pixmap_loaded st a pix).2 = [(cb, pix)] := by
  simp only [IconManager.on_pixmap_loaded]
  rw [h]

/-- C3 counterexample: callers with callback tokens 1 and then 2 request the
same uncached asset-id; when the pixmap load completes, the icon is
delivered to callback 1 — the FIRST registered — because the second call
returned at the pending-request guard without overwriting the record.  The
claim predicts delivery to the last-registered callback, 2. -/
theorem icon_delivery_not_last_registered :
    (let a : AssetInfo := ⟨AssetId.int 9, "CHR", "hero", none, none⟩
     let st1 := (IconManager.request_icon (IconManagerState.initial Nat) 1 a).1
     let st2 := (IconManager.request_icon st1 2 a).1
     (IconManager.on_pixmap_loaded st2 a 4).2) = [(1, 4)]
      ∧ (1 : Nat) ≠ 2 := by
  constructor
  · rfl
  · decide

/-- C3 (amended): while a request for an asset-id is in flight, a later
`request_icon` call for the same id returns at the pending-request guard
without registering its callback, so only one callback is retained per
asset-id and it is the caller whose callback was registered FIRST who
receives the completion notification. -/
theorem icon_delivery_first_registered {κ : Type} (st : IconManagerState κ)
    (cb1 cb2 : κ) (a : AssetInfo) (pix : PixmapData)
    (hload : dictGet st.loaded_icons a.id = none)
    (hpend : dictGet st.requests a.id = none) :
    (IconManager.on_pixmap_loaded
        ((IconManager.request_icon
            ((IconManager.request_icon st cb1 a).1) cb2 a).1) a pix).2
      = [(cb1, pix)] := by
  have e1 := request_icon_fresh st cb1 a hload hpend
  have hload1 : dictGet ((IconManager.request_icon st cb1 a).1).loaded_icons a.id
      = none := by
    rw [e1]
    exact hload
  have hpend1 : (dictGet ((IconManager.request_icon st cb1 a).1).requests a.id).isSome
      = true := by
    rw [e1]
    show (dictGet (dictSet st.requests a.id cb1) a.id).isSome = true
    rw [dictGet_dictSet_self]
    rfl
  have e2 := request_icon_pending ((IconManager.request_icon st cb1 a).1) cb2 a
    hload1 hpend1
  rw [e2]
  show (IconManager.on_pixmap_loaded ((IconManager.request_icon st cb1 a).1) a pix).2
      = [(cb1, pix)]
  refine on_pixmap_loaded_delivers _ a pix cb1 ?_
  rw [e1]
  exact dictGet_dictSet_self st.requests a.id cb1

/-- Witness for the amended C3 at concrete states and callbacks. -/
theorem icon_delivery_first_registered_witness :
    (IconManager.on_pixmap_loaded
        ((IconManager.request_icon
            ((IconManager.request_icon (IconManagerState.initial Nat) 10
              ⟨AssetId.str "rock", "PRP", "rock", none, none⟩).1) 20
              ⟨AssetId.str "rock", "PRP", "rock", none, none⟩).1)
        ⟨AssetId.str "rock", "PRP", "rock", none, none⟩ 6).2
      = [(10, 6)] :=
  icon_delivery_first_registered (IconManagerState.initial Nat) 10 20
    ⟨AssetId.str "rock", "PRP", "rock", none, none⟩ 6 (by decide) (by decide)

/-- C2: a `request_icon` call for an asset-id whose fetch is pending and not
yet completed is a complete no-op (nothing is enqueued, no state changes);
along every operation sequence the application can perform (requests,
worker dequeues, completions — `clear_cache` has no caller in the
repository), the queue never holds two entries with the same asset-id; and
two consecutive requests for a fresh id push exactly one queue entry. -/
theorem icon_request_dedup {κ : Type} (st : IconManagerState κ) (cb : κ)
    (a : AssetInfo) (ops : List (IconOp κ))
    (hpend : (dictGet st.requests a.id).isSome = true)
    (hload : dictGet st.loaded_icons a.id = none) :
    IconManager.request_icon st cb a = (st, [])
      ∧ ((IconOp.runFrom (IconManagerState.initial κ) ops).queue.map AssetInfo.id).Nodup
      ∧ ∀ (st' : IconManagerState κ) (cb1 cb2 : κ) (b : AssetInfo),
          dictGet st'.loaded_icons b.id = none →
          dictGet st'.requests b.id = none →
          ((IconManager.request_icon
              ((IconManager.request_icon st' cb1 b).1) cb2 b).1).queue
            = b :: st'.queue := by
  refine ⟨request_icon_pending st cb a hload hpend, ?_, ?_⟩
  · exact (iconInv_runFrom ops _ (iconInv_initial κ)).2
  · intro st' cb1 cb2 b hload' hpend'
    have e1 := request_icon_fresh st' cb1 b hload' hpend'
    have hload1 : dictGet ((IconManager.request_icon st' cb1 b).1).loaded_icons b.id
        = none := by
      rw [e1]
      exact hload'
    have hpend1 : (dictGet ((IconManager.request_icon st' cb1 b).1).requests b.id).isSome
        = true := by
      rw [e1]
      show (dictGet (dictSet st'.requests b.id cb1) b.id).isSome = true
      rw [dictGet_dictSet_self]
      rfl
    rw [request_icon_pending ((IconManager.request_icon st' cb1 b).1) cb2 b
      hload1 hpend1]
    rw [e1]

/-- Witness for C2 at a concrete pending state and operation sequence. -/
theorem icon_request_dedup_witness :
    IconManager.request_icon
        (⟨[], [(AssetId.int 5, 3)], [⟨AssetId.int 5, "CHR", "hero", none, none⟩]⟩
          : IconManagerState Nat) 4 ⟨AssetId.int 5, "CHR", "hero", none, none⟩
      = (⟨[], [(AssetId.int 5, 3)], [⟨AssetId.int 5, "CHR", "hero", none, none⟩]⟩, []) :=
  (icon_request_dedup
    (⟨[], [(AssetId.int 5, 3)], [⟨AssetId.int 5, "CHR", "hero", none, none⟩]⟩
      : IconManagerState Nat) 4 ⟨AssetId.int 5, "CHR", "hero", none, none⟩
    [IconOp.request 4 ⟨AssetId.int 5, "CHR", "hero", none, none⟩, IconOp.dequeue]
    (by decide) (by decide)).1

/-- C4: per tree node, `_load_children` on a state other than `NotLoaded` is
a complete no-op (state kept, no request dispatched); from `NotLoaded` it
advances to `InProgress`, and the append-completion callback advances
`InProgress` to `Loaded` — so the progression runs exactly once per
expansion and never goes backwards; and no per-node operation (expansion or
icon machinery) other than `reload` ever produces `NotLoaded` again. -/
theorem loading_state_machine (is_root : Bool) (e : EntityType) :
    (∀ s : LoadingStates, s ≠ LoadingStates.NotLoaded →
        AssetTreeView.load_children_state is_root e s = (s, false))
      ∧ (AssetTreeView.load_children_state is_root e LoadingStates.NotLoaded).1
          = LoadingStates.InProgress
      ∧ AssetTreeView.append_complete_state LoadingStates.InProgress
          = LoadingStates.Loaded
      ∧ (∀ s : LoadingStates,
          s.rank ≤ ((AssetTreeView.load_children_state is_root e s).1).rank
            ∧ s.rank ≤ (AssetTreeView.append_complete_state s).rank)
      ∧ (∀ (op : NodeOp) (s : LoadingStates),
          op.applyState s = LoadingStates.NotLoaded → s = LoadingStates.NotLoaded)
      ∧ AssetTreeView.reload_state LoadingStates.Loaded = LoadingStates.NotLoaded := by
  refine ⟨?_, ?_, rfl, ?_, ?_, rfl⟩
  · intro s hs
    simp [AssetTreeView.load_children_state, hs]
  · simp [AssetTreeView.load_children_state]
  · intro s
    cases s <;> cases is_root <;> cases e <;>
      simp [AssetTreeView.load_children_state, AssetTreeView.append_complete_state,
        LoadingStates.rank]
  · intro op s
    cases op with
    | loadChildren r e' =>
        cases s <;> simp [NodeOp.applyState, AssetTreeView.load_children_state]
    | appendComplete =>
        cases s <;> simp [NodeOp.applyState, AssetTreeView.append_complete_state]
    | decorationRequest =>
        cases s <;> simp [NodeOp.applyState, ItemModel.decoration_request_state]
    | iconLoaded =>
        cases s <;> simp [NodeOp.applyState, ItemModel.icon_loaded_state]

/-- Witness for C4: re-expanding a `Loaded` `AssetType` node changes
nothing and dispatches no request. -/
theorem loading_state_machine_witness :
    AssetTreeView.load_children_state false EntityType.AssetType LoadingStates.Loaded
      = (LoadingStates.Loaded, false) :=
  (loading_state_machine false EntityType.AssetType).1 LoadingStates.Loaded (by decide)

/-- C5 counterexample: `_human_key` compares text runs after
`str.swapcase()`, not case-folded as the claim states.  The spec's
case-folded key makes "A" and "a" tie (equal keys, which a stable sort
leaves in input order), but the code's key orders them strictly — its
`lessThan` holds of ("A", "a"), and the displayed order of the input
["A", "a"] is the reordered ["a", "A"]. -/
theorem natural_sort_not_casefolded :
    pyCompare (ProxyModel.human_key_casefolded "A")
        (ProxyModel.human_key_casefolded "a") = some Ordering.eq
      ∧ pyCompare (ProxyModel.human_key "A") (ProxyModel.human_key "a")
        = some Ordering.gt
      ∧ ProxyModel.lessThan "A" "a" = true
      ∧ displaySort ["A", "a"] = ["a", "A"] := by
  refine ⟨?_, ?_, ?_, ?_⟩ <;> decide

/-- C5 (amended): the comparator splits each sort key into alternating
non-numeric/numeric runs and compares numeric runs by value, but text runs
lexically after `swapcase` rather than case-folded; `lessThan` returns the
greater-than comparison of the keys, which the view's default descending
sort indicator re-inverts (Qt applies `lessThan` with swapped arguments
when sorting descending), so the displayed order is ascending for the
user: "v2", "v10", "v100" appear in that order and "item10" sorts after
"item2". -/
theorem natural_sort_display_ascending :
    pyCompare (ProxyModel.human_key "v2") (ProxyModel.human_key "v10")
        = some Ordering.lt
      ∧ pyCompare (ProxyModel.human_key "v10") (ProxyModel.human_key "v100")
        = some Ordering.lt
      ∧ pyCompare (ProxyModel.human_key "item2") (ProxyModel.human_key "item10")
        = some Ordering.lt
      ∧ ProxyModel.lessThan "v10" "v2" = true
      ∧ ProxyModel.lessThan "v100" "v10" = true
      ∧ displaySort ["v10", "v2", "v100"] = ["v2", "v10", "v100"]
      ∧ displaySort ["v2", "v10", "v100"] = ["v2", "v10", "v100"]
      ∧ displaySort ["item10", "item2"] = ["item2", "item10"]
      ∧ ProxyModel.lessThan "A" "a" = true := by
  refine ⟨?_, ?_, ?_, ?_, ?_, ?_, ?_, ?_, ?_⟩ <;> decide

/-- Elements of the enumerate-and-map step: position `i` counted from start
index `j` holds a string exactly when `j + i` is even. -/
theorem humanKeyAux_get_isLeft :
    ∀ (parts : List String) (j i : Nat),
      ((humanKeyAux j parts).get? i).all
          (fun x => x.isLeft == decide ((j + i) % 2 = 0)) = true := by
  intro parts
  induction parts with
  | nil =>
      intro j i
      simp [humanKeyAux]
  | cons e rest ih =>
      intro j i
      cases i with
      | zero =>
          by_cases h : j % 2 = 0 <;> simp [humanKeyAux, h]
      | succ i' =>
          have harith : j + (i' + 1) = (j + 1) + i' := by omega
          simp only [humanKeyAux, List.get?_cons_succ, harith]
          exact ih (j + 1) i'

/-- Aligned tuples (built from the same start parity) always compare. -/
theorem pyCompare_humanKeyAux_isSome :
    ∀ (as bs : List String) (i : Nat),
      (pyCompare (humanKeyAux i as) (humanKeyAux i bs)).isSome = true := by
  intro as
  induction as with
  | nil =>
      intro bs i
      cases bs <;> simp [humanKeyAux, pyCompare]
  | cons a as' ih =>
      intro bs i
      cases bs with
      | nil => simp [humanKeyAux, pyCompare]
      | cons b bs' =>
          by_cases h : i % 2 = 0
          · simp only [humanKeyAux, h, if_true, pyCompare, compareElem]
            cases hc : compareStr (swapcase a) (swapcase b) with
            | lt => simp
            | eq => exact ih bs' (i + 1)
            | gt => simp
          · simp only [humanKeyAux, h, if_false, pyCompare, compareElem]
            cases hc : compareRat (numVal a) (numVal b) with
            | lt => simp
            | eq => exact ih bs' (i + 1)
            | gt => simp

/-- C10: every `_human_key` tuple carries its string (swapcased text)
components exactly at even indices and its numeric (float) components
exactly at odd indices, so the element-wise tuple comparison performed by
`lessThan` never pits a string against a number: it is defined (no
`TypeError`) on every pair of sort keys, making the comparator total. -/
theorem human_key_comparison_total (s t : String) (i : Nat) :
    (pyCompare (ProxyModel.human_key s) (ProxyModel.human_key t)).isSome = true
      ∧ ((ProxyModel.human_key s).get? i).all
          (fun x => x.isLeft == decide (i % 2 = 0)) = true := by
  constructor
  · exact pyCompare_humanKeyAux_isSome (reSplitNum s) (reSplitNum t) 0
  · have := humanKeyAux_get_isLeft (reSplitNum s) 0 i
    simpa [ProxyModel.human_key] using this

/-- With a non-empty pattern, `filterAcceptsRow` is the wildcard search on
the sort key. -/
theorem filterAcceptsRow_ne (p : String) (hp : p ≠ "") (k : String) :
    ProxyModel.filterAcceptsRow p k = wcSearch p.data k.data := by
  simp [ProxyModel.filterAcceptsRow, hp]

theorem anyAcceptedRec_iff (p : String) : ∀ cs : List Tree,
    Tree.anyAcceptedRec p cs = true ↔ ∃ c ∈ cs, Tree.acceptedRec p c = true := by
  intro cs
  induction cs with
  | nil => simp [Tree.anyAcceptedRec]
  | cons c cs ih => simp [Tree.anyAcceptedRec, ih]

theorem mem_descendantsList (d : Tree) : ∀ cs : List Tree,
    d ∈ Tree.descendantsList cs ↔ ∃ c ∈ cs, d = c ∨ d ∈ Tree.descendants c := by
  intro cs
  induction cs with
  | nil => simp [Tree.descendantsList]
  | cons c cs ih =>
      simp only [Tree.descendantsList, List.mem_cons, List.mem_append, ih]
      constructor
      · rintro (h | h | h)
        · exact ⟨c, Or.inl rfl, Or.inl h⟩
        · exact ⟨c, Or.inl rfl, Or.inr h⟩
        · obtain ⟨x, hx, h'⟩ := h
          exact ⟨x, Or.inr hx, h'⟩
      · rintro ⟨x, hx, h'⟩
        rcases hx with rfl | hmem
        · rcases h' with h' | h'
          · exact Or.inl h'
          · exact Or.inr (Or.inl h')
        · exact Or.inr (Or.inr ⟨x, hmem, h'⟩)

theorem mem_descendants_node {d c : Tree} {k : String} {cs : List Tree}
    (hc : c ∈ cs) (h : d = c ∨ d ∈ Tree.descendants c) :
    d ∈ (Tree.node k cs).descendants := by
  show d ∈ Tree.descendantsList cs
  exact (mem_descendantsList d cs).mpr ⟨c, hc, h⟩

theorem descendants_trans :
    ∀ (n : Nat) (t : Tree), sizeOf t ≤ n → ∀ d x : Tree,
      d ∈ t.descendants → x ∈ d.descendants → x ∈ t.descendants := by
  intro n
  induction n with
  | zero =>
      intro t ht
      obtain ⟨k, cs⟩ := t
      simp at ht
  | succ n ih =>
      intro t ht d x hd hx
      obtain ⟨k, cs⟩ := t
      obtain ⟨c, hc, hdc⟩ := (mem_descendantsList d cs).mp hd
      have hsc : sizeOf c ≤ n := by
        have h1 := List.sizeOf_lt_of_mem hc
        have h2 : sizeOf (Tree.node k cs) = 1 + sizeOf k + sizeOf cs := by simp
        omega
      rcases hdc with rfl | hdc
      · exact mem_descendants_node hc (Or.inr hx)
      · exact mem_descendants_node hc (Or.inr (ih c hsc d x hdc hx))

/-- A node is accepted by the recursive filter exactly when its own key or
some descendant's key passes `filterAcceptsRow`. -/
theorem acceptedRec_iff (p : String) :
    ∀ (n : Nat) (t : Tree), sizeOf t ≤ n →
      (Tree.acceptedRec p t = true ↔
        (ProxyModel.filterAcceptsRow p t.key = true ∨
          ∃ d ∈ t.descendants, ProxyModel.filterAcceptsRow p d.key = true)) := by
  intro n
  induction n with
  | zero =>
      intro t ht
      obtain ⟨k, cs⟩ := t
      simp at ht
  | succ n ih =>
      intro t ht
      obtain ⟨k, cs⟩ := t
      have hsize : ∀ c ∈ cs, sizeOf c ≤ n := by
        intro c hc
        have h1 := List.sizeOf_lt_of_mem hc
        have h2 : sizeOf (Tree.node k cs) = 1 + sizeOf k + sizeOf cs := by simp
        omega
      show (ProxyModel.filterAcceptsRow p k || Tree.anyAcceptedRec p cs) = true ↔
        (ProxyModel.filterAcceptsRow p k = true ∨
          ∃ d ∈ Tree.descendantsList cs, ProxyModel.filterAcceptsRow p d.key = true)
      rw [Bool.or_eq_true, anyAcceptedRec_iff]
      constructor
      · rintro (hk | ⟨c, hc, hacc⟩)
        · exact Or.inl hk
        · rcases (ih c (hsize c hc)).mp hacc with hck | ⟨d, hd, hdk⟩
          · exact Or.inr ⟨c, (mem_descendantsList c cs).mpr ⟨c, hc, Or.inl rfl⟩, hck⟩
          · exact Or.inr ⟨d, (mem_descendantsList d cs).mpr ⟨c, hc, Or.inr hd⟩, hdk⟩
      · rintro (hk | ⟨d, hd, hdk⟩)
        · exact Or.inl hk
        · obtain ⟨c, hc, hdc⟩ := (mem_descendantsList d cs).mp hd
          rcases hdc with rfl | hdc
          · exact Or.inr ⟨d, hc, (ih d (hsize d hc)).mpr (Or.inl hdk)⟩
          · exact Or.inr ⟨c, hc, (ih c (hsize c hc)).mpr (Or.inr ⟨d, hdc, hdk⟩)⟩

/-- The node reached by a path is the tree itself or one of its descendants. -/
theorem nodeAt_mem :
    ∀ (path : List Nat) (t n : Tree),
      Tree.nodeAt t path = some n → n = t ∨ n ∈ t.descendants := by
  intro path
  induction path with
  | nil =>
      intro t n h
      have ht : some t = some n := h
      exact Or.inl (Option.some.inj ht).symm
  | cons i rest ih =>
      intro t n h
      cases hget : t.children.get? i with
      | none =>
          exfalso
          have hnone : Tree.nodeAt t (i :: rest) = none := by
            show (match t.children.get? i with
                  | none => none
                  | some c => Tree.nodeAt c rest) = none
            rw [hget]
          rw [hnone] at h
          exact Option.noConfusion h
      | some c =>
          have hc : c ∈ t.children := List.get?_mem hget
          have hrec : Tree.nodeAt c rest = some n := by
            have hstep : Tree.nodeAt t (i :: rest) = Tree.nodeAt c rest := by
              show (match t.children.get? i with
                    | none => none
                    | some c => Tree.nodeAt c rest) = Tree.nodeAt c rest
              rw [hget]
            rw [hstep] at h
            exact h
          obtain ⟨k, cs⟩ := t
          rcases ih c n hrec with rfl | hdesc
          · exact Or.inr (mem_descendants_node hc (Or.inl rfl))
          · exact Or.inr (mem_descendants_node hc (Or.inr hdesc))

/-- C6: for every tree and non-empty filter pattern, the node reached by a
path is displayed after filtering exactly when its own sort key or the sort
key of some descendant matches the case-insensitive wildcard pattern — in
particular a matching leaf keeps its whole ancestor chain visible even when
the ancestors' own keys do not match. -/
theorem filter_visibility (pattern : String) (hp : pattern ≠ "") :
    ∀ (path : List Nat) (t n : Tree),
      Tree.nodeAt t path = some n →
      (Tree.visibleAt pattern t path = true ↔
        (wcSearch pattern.data n.key.data = true ∨
          ∃ d ∈ n.descendants, wcSearch pattern.data d.key.data = true)) := by
  intro path
  induction path with
  | nil =>
      intro t n h
      have ht : t = n := Option.some.inj h
      subst ht
      show Tree.acceptedRec pattern t = true ↔ _
      rw [acceptedRec_iff pattern (sizeOf t) t le_rfl,
        filterAcceptsRow_ne pattern hp]
      constructor
      · rintro (hk | ⟨d, hd, hdk⟩)
        · exact Or.inl hk
        · rw [filterAcceptsRow_ne pattern hp] at hdk
          exact Or.inr ⟨d, hd, hdk⟩
      · rintro (hk | ⟨d, hd, hdk⟩)
        · exact Or.inl hk
        · rw [← filterAcceptsRow_ne pattern hp] at hdk
          exact Or.inr ⟨d, hd, hdk⟩
  | cons i rest ih =>
      intro t n h
      cases hget : t.children.get? i with
      | none =>
          exfalso
          have hnone : Tree.nodeAt t (i :: rest) = none := by
            show (match t.children.get? i with
                  | none => none
                  | some c => Tree.nodeAt c rest) = none
            rw [hget]
          rw [hnone] at h
          exact Option.noConfusion h
      | some c =>
          have hc : c ∈ t.children := List.get?_mem hget
          have hrec : Tree.nodeAt c rest = some n := by
            have hstep : Tree.nodeAt t (i :: rest) = Tree.nodeAt c rest := by
              show (match t.children.get? i with
                    | none => none
                    | some c => Tree.nodeAt c rest) = Tree.nodeAt c rest
              rw [hget]
            rw [hstep] at h
            exact h
          have hvis : Tree.visibleAt pattern t (i :: rest)
              = (Tree.acceptedRec pattern t && Tree.visibleAt pattern c rest) := by
            show (Tree.acceptedRec pattern t &&
                (match t.children.get? i with
                 | none => false
                 | some c => Tree.visibleAt pattern c rest))
              = (Tree.acceptedRec pattern t && Tree.visibleAt pattern c rest)
            rw [hget]
          rw [hvis, Bool.and_eq_true, ih c n hrec]
          constructor
          · rintro ⟨_, hr⟩
            exact hr
          · intro hr
            refine ⟨?_, hr⟩
            apply (acceptedRec_iff pattern (sizeOf t) t le_rfl).mpr
            have hsub : n = c ∨ n ∈ Tree.descendants c := nodeAt_mem rest c n hrec
            have hmem : n = t ∨ n ∈ t.descendants := by
              rcases hsub with rfl | hnd
              · obtain ⟨k, cs⟩ := t
                exact Or.inr (mem_descendants_node hc (Or.inl rfl))
              · obtain ⟨k, cs⟩ := t
                exact Or.inr (mem_descendants_node hc (Or.inr hnd))
            rcases hmem with rfl | hnd
            · rcases hr with hk | ⟨d, hd, hdk⟩
              · rw [filterAcceptsRow_ne pattern hp]
                exact Or.inl hk
              · rw [filterAcceptsRow_ne pattern hp]
                refine Or.inr ⟨d, hd, ?_⟩
                rw [filterAcceptsRow_ne pattern hp]
                exact hdk
            · rcases hr with hk | ⟨d, hd, hdk⟩
              · refine Or.inr ⟨n, hnd, ?_⟩
                rw [filterAcceptsRow_ne pattern hp]
                exact hk
              · refine Or.inr ⟨d, descendants_trans (sizeOf t) t le_rfl n d hnd hd, ?_⟩
                rw [filterAcceptsRow_ne pattern hp]
                exact hdk

/-- Witness for C6: pattern "abc" matches the leaf key "xyzABCde"
case-insensitively; the leaf and both ancestors ("proj", "mid" — neither of
which matches) are all visible. -/
theorem filter_visibility_witness :
    Tree.visibleAt "abc"
        (Tree.node "proj" [Tree.node "mid" [Tree.node "xyzABCde" []]]) [0, 0] = true
      ∧ Tree.visibleAt "abc"
        (Tree.node "proj" [Tree.node "mid" [Tree.node "xyzABCde" []]]) [0] = true
      ∧ Tree.visibleAt "abc"
        (Tree.node "proj" [Tree.node "mid" [Tree.node "xyzABCde" []]]) [] = true
      ∧ wcSearch "abc".data "proj".data = false
      ∧ wcSearch "abc".data "mid".data = false := by
  refine ⟨?_, ?_, ?_, by decide, by decide⟩
  · exact (filter_visibility "abc" (by decide) [0, 0]
      (Tree.node "proj" [Tree.node "mid" [Tree.node "xyzABCde" []]])
      (Tree.node "xyzABCde" []) rfl).mpr (Or.inl (by decide))
  · exact (filter_visibility "abc" (by decide) [0]
      (Tree.node "proj" [Tree.node "mid" [Tree.node "xyzABCde" []]])
      (Tree.node "mid" [Tree.node "xyzABCde" []]) rfl).mpr
      (Or.inr ⟨Tree.node "xyzABCde" [],
        show Tree.node "xyzABCde" [] ∈ [Tree.node "xyzABCde" []] from List.Mem.head [],
        by decide⟩)
  · exact (filter_visibility "abc" (by decide) []
      (Tree.node "proj" [Tree.node "mid" [Tree.node "xyzABCde" []]])
      (Tree.node "proj" [Tree.node "mid" [Tree.node "xyzABCde" []]]) rfl).mpr
      (Or.inr ⟨Tree.node "xyzABCde" [],
        show Tree.node "xyzABCde" []
            ∈ [Tree.node "mid" [Tree.node "xyzABCde" []], Tree.node "xyzABCde" []] from
          List.Mem.tail _ (List.Mem.head []),
        by decide⟩)

end BdLoader
